import Mathlib

/-!
Formal model of `study_planner.py` (Study-Planner-Agent repository).

Modelling conventions:
* Python floats are modelled as exact rationals (`ℚ`).
* Python dicts are association lists in insertion order; keys of real dicts
  are unique, which appears as a `Nodup` hypothesis where it matters.
* `datetime` values are integer minutes on a global clock (`ℤ`); the source
  only ever adds `timedelta(minutes=d)` and formats, so addition on `ℤ` is a
  faithful image of the time arithmetic.
* Python `int(x)` truncation toward zero is `pyInt`.
* The unbounded reconciliation `while` loop of `distribute_time` is modelled
  with explicit fuel; a `none` result means the loop did not finish within
  the given fuel (for every fuel: the loop never terminates).
* The `while` loop of `split_into_sessions` terminates in at most `minutes`
  iterations whenever it terminates at all, so fuel `minutes.toNat` is used;
  `none` again marks divergence of the source loop.
* File existence and the outcome of `json.loads` in `load_memory` are
  explicit parameters (`Bool`, `Option JsonVal`).
-/

/-- Python `int(q)`: truncation toward zero. -/
def pyInt (q : ℚ) : ℤ := if q < 0 then -⌊-q⌋ else ⌊q⌋

/-- `normalize_weights` from the source: divide each weight by the sum of all
weights; if the sum is exactly zero, give each of the `n` subjects `1/n`. -/
def normalize_weights (priorities : List (String × ℚ)) : List (String × ℚ) :=
  let s := (priorities.map Prod.snd).sum
  if s = 0 then priorities.map (fun kv => (kv.1, 1 / (priorities.length : ℚ)))
  else priorities.map (fun kv => (kv.1, kv.2 / s))

/-- Dict lookup `raw[k]` (first binding; real dict keys are unique). -/
def dget : List (String × ℤ) → String → ℤ
  | [], _ => 0
  | kv :: rest, k => if kv.1 = k then kv.2 else dget rest k

/-- Dict update `raw[k] = f raw[k]` on an association list. -/
def updKey (raw : List (String × ℤ)) (k : String) (f : ℤ → ℤ) :
    List (String × ℤ) :=
  raw.map (fun kv => if kv.1 = k then (kv.1, f kv.2) else kv)

/-- The round-robin reconciliation `while` loop of `distribute_time`
(`while diff != 0 and keys:`), with explicit fuel. -/
def distLoop (min_block : ℤ) (keys : List String) :
    ℕ → List (String × ℤ) → ℤ → ℕ → Option (List (String × ℤ))
  | 0, raw, diff, _ => if diff = 0 ∨ keys = [] then some raw else none
  | fuel + 1, raw, diff, i =>
    if diff = 0 ∨ keys = [] then some raw
    else
      let k := keys.getD (i % keys.length) ""
      if 0 < diff then
        distLoop min_block keys fuel (updKey raw k (fun v => v + 1)) (diff - 1) (i + 1)
      else if min_block < dget raw k then
        distLoop min_block keys fuel (updKey raw k (fun v => v - 1)) (diff + 1) (i + 1)
      else
        distLoop min_block keys fuel raw diff (i + 1)

/-- Steps 2 and 3 of `distribute_time`: the floor allocation
`raw = {k: int(total_minutes * w)}` followed by the minimum-block bump of
zero allocations (`if raw[k] == 0 and total_minutes >= min_block`). -/
def initAlloc (total_minutes : ℤ) (weights : List (String × ℚ))
    (min_block : ℤ) : List (String × ℤ) :=
  (weights.map (fun kv => (kv.1, pyInt ((total_minutes : ℚ) * kv.2)))).map
    (fun kv => if kv.2 = 0 ∧ min_block ≤ total_minutes then (kv.1, min_block) else kv)

/-- `distribute_time` from the source (default `min_block` is 25 there).
Step 1: `total ≤ 0` gives everyone 0.  Steps 2 and 3: `initAlloc`.
Step 4: the reconciliation loop, here fuelled, starting from
`diff = total_minutes - sum(raw.values())` and index 0. -/
def distribute_time (fuel : ℕ) (total_minutes : ℤ)
    (weights : List (String × ℚ)) (min_block : ℤ) :
    Option (List (String × ℤ)) :=
  if total_minutes ≤ 0 then some (weights.map (fun kv => (kv.1, 0)))
  else
    distLoop min_block (weights.map Prod.fst) fuel
      (initAlloc total_minutes weights min_block)
      (total_minutes - ((initAlloc total_minutes weights min_block).map Prod.snd).sum) 0

/-- The `while remaining > 0` loop of `split_into_sessions`, with fuel
counting loop iterations. -/
def split_go (focus_len short_break : ℤ) : ℕ → ℤ → Option (List (ℤ × String))
  | 0, remaining => if remaining ≤ 0 then some [] else none
  | fuel + 1, remaining =>
    if remaining ≤ 0 then some []
    else if remaining ≤ focus_len then some [(remaining, "study")]
    else
      let rem := remaining - focus_len
      if 0 < rem then
        let b := min short_break rem
        (split_go focus_len short_break fuel (rem - b)).map
          (fun rest => (focus_len, "study") :: (b, "break") :: rest)
      else
        (split_go focus_len short_break fuel rem).map
          (fun rest => (focus_len, "study") :: rest)

/-- `split_into_sessions` from the source (source defaults: focus 50,
short break 10).  Whenever the source loop terminates it does so within
`minutes` iterations, so this fuel is exact: `none` means the source loop
diverges. -/
def split_into_sessions (minutes focus_len short_break : ℤ) :
    Option (List (ℤ × String)) :=
  split_go focus_len short_break minutes.toNat minutes

/-- One row of the schedule: the dict literal built inside `build_schedule`,
with clock times as integer minutes (field `stop` models the `end` key). -/
structure Row where
  start : ℤ
  stop : ℤ
  duration_min : ℤ
  type : String
  subject : String
deriving DecidableEq, Repr

/-- The inner `for dur, kind in sessions` loop of `build_schedule`: emits a
row per session block, advances the cursor, counts study blocks and inserts
a long break after every `long_break_every`-th one.  Returns the rows plus
the final cursor and counter. -/
def emitSessions (long_break_every long_break_len : ℤ) (subj : String) :
    List (ℤ × String) → ℤ → ℤ → List Row × ℤ × ℤ
  | [], cur, counter => ([], cur, counter)
  | (dur, kind) :: rest, cur, counter =>
    let endT := cur + dur
    let row : Row := ⟨cur, endT, dur, kind, if kind = "study" then subj else ""⟩
    if kind = "study" then
      if (counter + 1) % long_break_every = 0 then
        let out := emitSessions long_break_every long_break_len subj rest
          (endT + long_break_len) (counter + 1)
        (row :: Row.mk endT (endT + long_break_len) long_break_len "break" ""
          :: out.1, out.2)
      else
        let out := emitSessions long_break_every long_break_len subj rest
          endT (counter + 1)
        (row :: out.1, out.2)
    else
      let out := emitSessions long_break_every long_break_len subj rest
        endT counter
      (row :: out.1, out.2)

/-- The outer `for subj in subjects` loop of `build_schedule`.  A subject
missing from the allocation map raises `KeyError` in the source, modelled as
`none`; `none` from the segmenter (diverging source loop) propagates. -/
def buildGo (focus_len short_break long_break_every long_break_len : ℤ)
    (per_subject : List (String × ℤ)) :
    List String → ℤ → ℤ → Option (List Row)
  | [], _, _ => some []
  | subj :: rest, cur, counter =>
    if subj ∈ per_subject.map Prod.fst then
      match split_into_sessions (dget per_subject subj) focus_len short_break with
      | none => none
      | some sessions =>
        let out := emitSessions long_break_every long_break_len subj sessions
          cur counter
        match buildGo focus_len short_break long_break_every long_break_len
          per_subject rest out.2.1 out.2.2 with
        | none => none
        | some more => some (out.1 ++ more)
    else none

/-- `build_schedule` from the source (source defaults: focus 45, short
break 10, long break every 3, long break 20; `start_time` defaults to the
current clock minute, here an explicit parameter).  The fuel feeds the
reconciliation loop of `distribute_time`, called with
`min_block = min(25, total_minutes)`. -/
def build_schedule (fuel : ℕ) (subjects : List String)
    (priorities : List (String × ℚ)) (total_minutes : ℤ) (start_time : ℤ)
    (focus_len short_break long_break_every long_break_len : ℤ) :
    Option (List Row) :=
  let weights := normalize_weights priorities
  match distribute_time fuel total_minutes weights (min 25 total_minutes) with
  | none => none
  | some per_subject =>
    buildGo focus_len short_break long_break_every long_break_len per_subject
      subjects start_time 0

/-- Sum of the durations of the study rows of a plan. -/
def studyMinutes (rows : List Row) : ℤ :=
  ((rows.filter (fun r => r.type == "study")).map Row.duration_min).sum

/-- Sum of the durations of all rows of a plan. -/
def allMinutes (rows : List Row) : ℤ :=
  (rows.map Row.duration_min).sum

/-- `contiguousFrom t rows` checks that the first row starts at `t` and each
following row starts where the previous one stopped. -/
def contiguousFrom : ℤ → List Row → Bool
  | _, [] => true
  | t, r :: rest => (r.start == t) && contiguousFrom r.stop rest

/-- Walk the rows with running study counter `c`; `pending = true` records
that the previous row was a study row whose new count is a multiple of
`lbe`, so the current row must be a break of duration `lbl`.  Study rows
increment the counter, break rows never do. -/
def cadenceWalk (lbe lbl : ℤ) : ℤ → Bool → List Row → Bool
  | _, pending, [] => !pending
  | c, pending, r :: rest =>
    if pending then
      (r.type == "break") && (r.duration_min == lbl)
        && cadenceWalk lbe lbl c false rest
    else if r.type == "study" then
      cadenceWalk lbe lbl (c + 1) ((c + 1) % lbe == 0) rest
    else
      cadenceWalk lbe lbl c false rest

/-- `cadenceOK lbe lbl c rows`: counting study rows with a single running
counter starting at `c`, every study row whose count is a multiple of `lbe`
is immediately followed by a break row of duration `lbl`, and break rows
never increment the counter. -/
def cadenceOK (lbe lbl : ℤ) (c : ℤ) (rows : List Row) : Bool :=
  cadenceWalk lbe lbl c false rows

/-- JSON values, for the persisted-memory model. -/
inductive JsonVal
  | null
  | bool (b : Bool)
  | num (n : ℤ)
  | str (s : String)
  | arr (xs : List JsonVal)
  | obj (fields : List (String × JsonVal))

/-- The fallback memory object `{"last_plan": []}`. -/
def emptyMemory : JsonVal := JsonVal.obj [("last_plan", JsonVal.arr [])]

/-- `load_memory` from the source.  `file_exists` models
`MEMORY_PATH.exists()`; `parsed` is the outcome of `json.loads` on the
file's text, `none` when parsing raises.  The `except` clause swallows the
exception and falls through to the default. -/
def load_memory (file_exists : Bool) (parsed : Option JsonVal) : JsonVal :=
  if file_exists then
    match parsed with
    | some j => j
    | none => emptyMemory
  else emptyMemory

/-- The example subjects used by the `example` command of the chat handler. -/
def exSubjects : List String := ["Math", "Python", "AI"]

/-- The example priorities `{Math: 3, Python: 2, AI: 4}`. -/
def exPriorities : List (String × ℚ) := [("Math", 3), ("Python", 2), ("AI", 4)]

/-- The plan `build_schedule` produces for the example inputs with a 180
minute budget, default parameters and start time 0: allocations are
Math 60, Python 40, AI 80; the third study block (Python's single one) is
followed by the inserted 20-minute long break. -/
def exRows : List Row :=
  [⟨0, 45, 45, "study", "Math"⟩, ⟨45, 55, 10, "break", ""⟩,
   ⟨55, 60, 5, "study", "Math"⟩, ⟨60, 100, 40, "study", "Python"⟩,
   ⟨100, 120, 20, "break", ""⟩, ⟨120, 165, 45, "study", "AI"⟩,
   ⟨165, 175, 10, "break", ""⟩, ⟨175, 200, 25, "study", "AI"⟩]

/-! ### Association-list lemmas -/

lemma map_fst_map {α β : Type} (g : String × α → String × β)
    (hg : ∀ kv, (g kv).1 = kv.1) :
    ∀ l : List (String × α), (l.map g).map Prod.fst = l.map Prod.fst := by
  intro l
  induction l with
  | nil => rfl
  | cons a t ih => simp [List.map_cons, hg, ih]

lemma updKey_fst (k : String) (f : ℤ → ℤ) (raw : List (String × ℤ)) :
    (updKey raw k f).map Prod.fst = raw.map Prod.fst := by
  refine map_fst_map _ (fun kv => ?_) raw
  by_cases h : kv.1 = k <;> simp [h]

lemma updKey_not_mem (k : String) (f : ℤ → ℤ) :
    ∀ raw : List (String × ℤ), k ∉ raw.map Prod.fst → updKey raw k f = raw := by
  intro raw
  induction raw with
  | nil => intro _; rfl
  | cons a t ih =>
    intro h
    simp only [List.map_cons, List.mem_cons, not_or] at h
    have ha : ¬ a.1 = k := fun hh => h.1 hh.symm
    simp only [updKey, List.map_cons, if_neg ha]
    have ht := ih h.2
    simp only [updKey] at ht
    rw [ht]

lemma dget_of_mem :
    ∀ raw : List (String × ℤ), (raw.map Prod.fst).Nodup →
      ∀ kv ∈ raw, dget raw kv.1 = kv.2 := by
  intro raw
  induction raw with
  | nil => intro _ kv hkv; simp at hkv
  | cons a t ih =>
    intro hnd kv hkv
    simp only [List.map_cons, List.nodup_cons] at hnd
    rcases List.mem_cons.mp hkv with rfl | hmem
    · simp [dget]
    · have hne : a.1 ≠ kv.1 := by
        intro he
        exact hnd.1 (he ▸ List.mem_map_of_mem Prod.fst hmem)
      simp only [dget, if_neg hne]
      exact ih hnd.2 kv hmem

lemma updKey_sum (k : String) (f : ℤ → ℤ) :
    ∀ raw : List (String × ℤ), (raw.map Prod.fst).Nodup →
      k ∈ raw.map Prod.fst →
      ((updKey raw k f).map Prod.snd).sum
        = (raw.map Prod.snd).sum - dget raw k + f (dget raw k) := by
  intro raw
  induction raw with
  | nil => intro _ hk; simp at hk
  | cons a t ih =>
    intro hnd hk
    simp only [List.map_cons, List.nodup_cons] at hnd
    by_cases h : a.1 = k
    · have hnt : k ∉ t.map Prod.fst := h ▸ hnd.1
      simp only [updKey, List.map_cons, if_pos h]
      have : t.map (fun kv => if kv.1 = k then (kv.1, f kv.2) else kv) = t :=
        updKey_not_mem k f t hnt
      rw [this]
      simp only [dget, if_pos h, List.map_cons, List.sum_cons]
      ring
    · rcases List.mem_cons.mp (List.mem_map.mp hk).choose_spec.1 with _ | _
      all_goals
        have hk' : k ∈ t.map Prod.fst := by
          rcases List.mem_map.mp hk with ⟨kv, hkv, hfst⟩
          rcases List.mem_cons.mp hkv with rfl | hmem
          · exact absurd hfst h
          · exact hfst ▸ List.mem_map_of_mem Prod.fst hmem
        simp only [updKey, List.map_cons, if_neg h, dget, List.sum_cons]
        have := ih hnd.2 hk'
        simp only [updKey] at this
        rw [this]
        ring

lemma mem_updKey {raw : List (String × ℤ)} {k : String} {f : ℤ → ℤ}
    {kv : String × ℤ} (h : kv ∈ updKey raw k f) :
    ∃ kv0 ∈ raw, kv = if kv0.1 = k then (kv0.1, f kv0.2) else kv0 := by
  rcases List.mem_map.mp h with ⟨kv0, hkv0, rfl⟩
  exact ⟨kv0, hkv0, rfl⟩

/-! ### Reconciliation-loop lemmas -/

lemma distLoop_diff_zero (mb : ℤ) (keys : List String) :
    ∀ fuel raw i, distLoop mb keys fuel raw 0 i = some raw := by
  intro fuel raw i; cases fuel <;> simp [distLoop]

lemma distLoop_nil_keys (mb : ℤ) :
    ∀ fuel raw diff i, distLoop mb [] fuel raw diff i = some raw := by
  intro fuel raw diff i; cases fuel <;> simp [distLoop]

lemma distLoop_spec (mb : ℤ) (keys : List String) (hmb : 0 ≤ mb)
    (hkeys : keys ≠ []) :
    ∀ fuel raw diff (i : ℕ) alloc,
      keys = raw.map Prod.fst →
      (raw.map Prod.fst).Nodup →
      (∀ kv ∈ raw, 0 ≤ kv.2) →
      distLoop mb keys fuel raw diff i = some alloc →
      alloc.map Prod.fst = raw.map Prod.fst ∧ (∀ kv ∈ alloc, 0 ≤ kv.2) ∧
        (alloc.map Prod.snd).sum = (raw.map Prod.snd).sum + diff := by
  intro fuel
  induction fuel with
  | zero =>
    intro raw diff i alloc hkeq hnd hnn h
    rw [distLoop] at h
    by_cases hd : diff = 0 ∨ keys = []
    · rcases hd with hd | hd
      · rw [if_pos (Or.inl hd)] at h
        cases h
        exact ⟨rfl, hnn, by rw [hd]; ring⟩
      · exact absurd hd hkeys
    · rw [if_neg hd] at h; cases h
  | succ n ih =>
    intro raw diff i alloc hkeq hnd hnn h
    rw [distLoop] at h
    by_cases hd : diff = 0 ∨ keys = []
    · rcases hd with hd | hd
      · rw [if_pos (Or.inl hd)] at h
        cases h
        exact ⟨rfl, hnn, by rw [hd]; ring⟩
      · exact absurd hd hkeys
    · rw [if_neg hd] at h
      simp only at h
      have hlen : 0 < keys.length := List.length_pos.mpr hkeys
      have hlt : i % keys.length < keys.length := Nat.mod_lt _ hlen
      set k := keys.getD (i % keys.length) "" with hkdef
      have hkmem : k ∈ keys := by
        rw [hkdef, List.getD_eq_getElem keys "" hlt]
        exact List.getElem_mem hlt
      have hkmem' : k ∈ raw.map Prod.fst := hkeq ▸ hkmem
      by_cases hpos : 0 < diff
      · rw [if_pos hpos] at h
        have hfst := updKey_fst k (fun v => v + 1) raw
        obtain ⟨h1, h2, h3⟩ := ih (updKey raw k (fun v => v + 1)) (diff - 1)
          (i + 1) alloc (by rw [hfst]; exact hkeq) (by rw [hfst]; exact hnd)
          (by
            intro kv hkv
            obtain ⟨kv0, hkv0, hkveq⟩ := mem_updKey hkv
            by_cases hc : kv0.1 = k
            · rw [hkveq, if_pos hc]
              have := hnn kv0 hkv0
              simp only
              omega
            · rw [hkveq, if_neg hc]
              exact hnn kv0 hkv0) h
        refine ⟨by rw [h1, hfst], h2, ?_⟩
        rw [h3, updKey_sum k (fun v => v + 1) raw hnd hkmem']
        ring
      · rw [if_neg hpos] at h
        by_cases hdec : mb < dget raw k
        · rw [if_pos hdec] at h
          have hfst := updKey_fst k (fun v => v - 1) raw
          obtain ⟨h1, h2, h3⟩ := ih (updKey raw k (fun v => v - 1)) (diff + 1)
            (i + 1) alloc (by rw [hfst]; exact hkeq) (by rw [hfst]; exact hnd)
            (by
              intro kv hkv
              obtain ⟨kv0, hkv0, hkveq⟩ := mem_updKey hkv
              by_cases hc : kv0.1 = k
              · rw [hkveq, if_pos hc]
                have hv : dget raw kv0.1 = kv0.2 := dget_of_mem raw hnd kv0 hkv0
                rw [hc] at hv
                simp only
                omega
              · rw [hkveq, if_neg hc]
                exact hnn kv0 hkv0) h
          refine ⟨by rw [h1, hfst], h2, ?_⟩
          rw [h3, updKey_sum k (fun v => v - 1) raw hnd hkmem']
          ring
        · rw [if_neg hdec] at h
          exact ih raw diff (i + 1) alloc hkeq hnd hnn h

/-! ### Session-segmenter lemmas -/

lemma split_go_sum (f s : ℤ) :
    ∀ fuel (r : ℤ) l, split_go f s fuel r = some l →
      (l.map Prod.fst).sum = max r 0 := by
  intro fuel
  induction fuel with
  | zero =>
    intro r l h
    rw [split_go] at h
    by_cases hr : r ≤ 0
    · rw [if_pos hr] at h; cases h; simp; omega
    · rw [if_neg hr] at h; cases h
  | succ n ih =>
    intro r l h
    rw [split_go] at h
    by_cases hr : r ≤ 0
    · rw [if_pos hr] at h; cases h; simp; omega
    · rw [if_neg hr] at h
      by_cases hf : r ≤ f
      · rw [if_pos hf] at h; cases h; simp; omega
      · rw [if_neg hf] at h
        simp only at h
        by_cases hrem : 0 < r - f
        · rw [if_pos hrem] at h
          rcases Option.map_eq_some'.mp h with ⟨rest, hrest, rfl⟩
          have hsum := ih (r - f - min s (r - f)) rest hrest
          simp only [List.map_cons, List.sum_cons]
          omega
        · omega

lemma split_go_total (f s : ℤ) (hf : 0 < f) (hs : 0 ≤ s) :
    ∀ fuel (r : ℤ), r.toNat ≤ fuel → ∃ l, split_go f s fuel r = some l := by
  intro fuel
  induction fuel with
  | zero =>
    intro r hr
    have : r ≤ 0 := by omega
    exact ⟨[], by rw [split_go, if_pos this]⟩
  | succ n ih =>
    intro r hr
    by_cases hr0 : r ≤ 0
    · exact ⟨[], by rw [split_go, if_pos hr0]⟩
    · by_cases hrf : r ≤ f
      · exact ⟨[(r, "study")], by rw [split_go, if_neg hr0, if_pos hrf]⟩
      · have hrem : 0 < r - f := by omega
        have hb : 0 ≤ min s (r - f) := by omega
        have hfuel : (r - f - min s (r - f)).toNat ≤ n := by omega
        obtain ⟨rest, hrest⟩ := ih (r - f - min s (r - f)) hfuel
        refine ⟨(f, "study") :: (min s (r - f), "break") :: rest, ?_⟩
        rw [split_go, if_neg hr0, if_neg hrf]
        simp only [if_pos hrem, hrest, Option.map_some']

/-! ### Assembler lemmas -/

lemma emit_contig (lbe lbl : ℤ) (subj : String) :
    ∀ (sessions : List (ℤ × String)) (cur counter : ℤ) (l2 : List Row),
      contiguousFrom (emitSessions lbe lbl subj sessions cur counter).2.1 l2 = true →
      contiguousFrom cur ((emitSessions lbe lbl subj sessions cur counter).1 ++ l2) = true := by
  intro sessions
  induction sessions with
  | nil => intro cur counter l2 h; simpa [emitSessions] using h
  | cons dk rest ih =>
    intro cur counter l2 h
    obtain ⟨dur, kind⟩ := dk
    by_cases hk : kind = "study"
    · by_cases hm : (counter + 1) % lbe = 0
      · simp only [emitSessions, if_pos hk, if_pos hm] at h ⊢
        simp only [List.cons_append, contiguousFrom, beq_self_eq_true,
          Bool.true_and]
        exact ih (cur + dur + lbl) (counter + 1) l2 h
      · simp only [emitSessions, if_pos hk, if_neg hm] at h ⊢
        simp only [List.cons_append, contiguousFrom, beq_self_eq_true,
          Bool.true_and]
        exact ih (cur + dur) (counter + 1) l2 h
    · simp only [emitSessions, if_neg hk] at h ⊢
      simp only [List.cons_append, contiguousFrom, beq_self_eq_true,
        Bool.true_and]
      exact ih (cur + dur) counter l2 h

lemma buildGo_contig (f s lbe lbl : ℤ) (per : List (String × ℤ)) :
    ∀ (subjects : List String) (cur counter : ℤ) rows,
      buildGo f s lbe lbl per subjects cur counter = some rows →
      contiguousFrom cur rows = true := by
  intro subjects
  induction subjects with
  | nil =>
    intro cur counter rows h
    simp only [buildGo, Option.some.injEq] at h
    rw [← h]
    rfl
  | cons subj rest ih =>
    intro cur counter rows h
    rw [buildGo] at h
    by_cases hmem : subj ∈ per.map Prod.fst
    · rw [if_pos hmem] at h
      cases hsp : split_into_sessions (dget per subj) f s with
      | none => rw [hsp] at h; cases h
      | some sessions =>
        rw [hsp] at h
        simp only at h
        cases hb : buildGo f s lbe lbl per rest
            (emitSessions lbe lbl subj sessions cur counter).2.1
            (emitSessions lbe lbl subj sessions cur counter).2.2 with
        | none => rw [hb] at h; cases h
        | some more =>
          rw [hb] at h
          simp only [Option.some.injEq] at h
          rw [← h]
          exact emit_contig lbe lbl subj sessions cur counter more
            (ih _ _ more hb)
    · rw [if_neg hmem] at h; cases h

lemma emit_cadence (lbe lbl : ℤ) (subj : String) :
    ∀ (sessions : List (ℤ × String)) (cur c : ℤ) (l2 : List Row),
      cadenceWalk lbe lbl (emitSessions lbe lbl subj sessions cur c).2.2 false l2 = true →
      cadenceWalk lbe lbl c false ((emitSessions lbe lbl subj sessions cur c).1 ++ l2) = true := by
  intro sessions
  induction sessions with
  | nil => intro cur c l2 h; simpa [emitSessions] using h
  | cons dk rest ih =>
    intro cur c l2 h
    obtain ⟨dur, kind⟩ := dk
    by_cases hk : kind = "study"
    · subst hk
      by_cases hm : (c + 1) % lbe = 0
      · simp only [emitSessions, if_pos hm] at h ⊢
        simp only [List.cons_append, cadenceWalk] at h ⊢
        simp [hm]
        exact ih (cur + dur + lbl) (c + 1) l2 h
      · simp only [emitSessions, if_neg hm] at h ⊢
        simp only [List.cons_append, cadenceWalk] at h ⊢
        have hb : ((c + 1) % lbe == 0) = false := by simp [hm]
        simp [hb]
        exact ih (cur + dur) (c + 1) l2 h
    · simp only [emitSessions, if_neg hk] at h ⊢
      simp only [List.cons_append, cadenceWalk] at h ⊢
      simp [hk]
      exact ih (cur + dur) c l2 h

lemma buildGo_cadence (f s lbe lbl : ℤ) (per : List (String × ℤ)) :
    ∀ (subjects : List String) (cur counter : ℤ) rows,
      buildGo f s lbe lbl per subjects cur counter = some rows →
      cadenceOK lbe lbl counter rows = true := by
  intro subjects
  induction subjects with
  | nil =>
    intro cur counter rows h
    simp only [buildGo, Option.some.injEq] at h
    rw [← h]
    rfl
  | cons subj rest ih =>
    intro cur counter rows h
    rw [buildGo] at h
    by_cases hmem : subj ∈ per.map Prod.fst
    · rw [if_pos hmem] at h
      cases hsp : split_into_sessions (dget per subj) f s with
      | none => rw [hsp] at h; cases h
      | some sessions =>
        rw [hsp] at h
        simp only at h
        cases hb : buildGo f s lbe lbl per rest
            (emitSessions lbe lbl subj sessions cur counter).2.1
            (emitSessions lbe lbl subj sessions cur counter).2.2 with
        | none => rw [hb] at h; cases h
        | some more =>
          rw [hb] at h
          simp only [Option.some.injEq] at h
          rw [← h]
          exact emit_cadence lbe lbl subj sessions cur counter more
            (ih _ _ more hb)
    · rw [if_neg hmem] at h; cases h

/-! ### Non-termination witness for the reconciliation loop -/

lemma distLoop_stuck :
    ∀ fuel (i : ℕ),
      distLoop 25 ["a", "b"] fuel [("a", 25), ("b", 25)] (-20) i = none := by
  intro fuel
  induction fuel with
  | zero => intro i; simp [distLoop]
  | succ n ih =>
    intro i
    rcases Nat.mod_two_eq_zero_or_one i with h | h <;>
      simp [distLoop, h, dget, updKey] <;>
      exact ih (i + 1)

/-! ### Allocation facts -/

lemma pyInt_nonneg {q : ℚ} (h : 0 ≤ q) : 0 ≤ pyInt q := by
  rw [pyInt, if_neg (not_lt.mpr h)]
  exact Int.floor_nonneg.mpr h

lemma initAlloc_fst (t : ℤ) (w : List (String × ℚ)) (mb : ℤ) :
    (initAlloc t w mb).map Prod.fst = w.map Prod.fst := by
  unfold initAlloc
  rw [map_fst_map _ (fun kv => by by_cases h : kv.2 = 0 ∧ mb ≤ t <;> simp [h]),
    map_fst_map (fun kv => (kv.1, pyInt ((t : ℚ) * kv.2))) (fun kv => rfl)]

lemma initAlloc_nonneg (t : ℤ) (w : List (String × ℚ)) (mb : ℤ)
    (ht : 0 ≤ t) (hmb : 0 ≤ mb) (hw : ∀ kv ∈ w, 0 ≤ kv.2) :
    ∀ kv ∈ initAlloc t w mb, 0 ≤ kv.2 := by
  intro kv hkv
  rw [initAlloc] at hkv
  rcases List.mem_map.mp hkv with ⟨kv1, hkv1, rfl⟩
  rcases List.mem_map.mp hkv1 with ⟨kv0, hkv0, rfl⟩
  have hval : (0:ℤ) ≤ pyInt ((t : ℚ) * kv0.2) :=
    pyInt_nonneg (mul_nonneg (by exact_mod_cast ht) (hw kv0 hkv0))
  by_cases h : pyInt ((t : ℚ) * kv0.2) = 0 ∧ mb ≤ t
  · simp only [if_pos h]
    exact hmb
  · simp only [if_neg h]
    exact hval

lemma exBuild :
    ∀ fuel, build_schedule fuel exSubjects exPriorities 180 0 45 10 3 20
      = some exRows := by
  intro fuel
  have h1 : normalize_weights exPriorities =
      [("Math", 3 / 9), ("Python", 2 / 9), ("AI", 4 / 9)] := by
    norm_num [normalize_weights, exPriorities]
  have h2 : distribute_time fuel 180
      [("Math", 3 / 9), ("Python", 2 / 9), ("AI", 4 / 9)] (min 25 180) =
      some [("Math", 60), ("Python", 40), ("AI", 80)] := by
    norm_num [distribute_time, initAlloc, pyInt, distLoop_diff_zero]
  rw [build_schedule, h1, h2]
  decide

/-! ### Claim theorems -/

/-- Claim C1, counterexample to the stated figure: for the example inputs
(subjects Math/Python/AI, priorities 3/2/4, 180 minutes, default
parameters) the durations of the blocks of type study sum to 160, not
180 — the short breaks are carved out of the 180-minute budget. -/
theorem claim_C1_counterexample :
    (build_schedule 1 exSubjects exPriorities 180 0 45 10 3 20).map studyMinutes
      = some 160 ∧ (160 : ℤ) ≠ 180 := by
  constructor
  · rw [exBuild 1]
    decide
  · decide

/-- Claim C1 as amended: for the example inputs the study blocks sum to
160; the study and short-break blocks together (every block except the
single inserted long break) sum to the full 180-minute budget, and all
blocks together sum to 200. -/
theorem claim_C1 :
    build_schedule 1 exSubjects exPriorities 180 0 45 10 3 20 = some exRows ∧
      studyMinutes exRows = 160 ∧
      allMinutes (exRows.erase (Row.mk 100 120 20 "break" "")) = 180 ∧
      allMinutes exRows = 200 :=
  ⟨exBuild 1, by decide, by decide, by decide⟩

/-- Claim C2, counterexample: `split_into_sessions 120 50 10` does not end
with a final 10-minute study block. -/
theorem claim_C2_counterexample :
    split_into_sessions 120 50 10 ≠
      some [(50, "study"), (10, "break"), (50, "study"), (10, "break"),
        (10, "study")] := by
  decide

/-- Claim C2 as amended: `split_into_sessions 120 50 10` returns exactly
study 50, break 10, study 50, break 10 — after the second full study block
the remaining 10 minutes are emitted as a break (`min(short_break, 10)`),
and the loop then stops with no trailing study block. -/
theorem claim_C2 :
    split_into_sessions 120 50 10 =
      some [(50, "study"), (10, "break"), (50, "study"), (10, "break")] := by
  decide

/-- Claim C3: for every non-empty weight map (unique keys, non-negative
weights), every total above 0 and every non-negative minimum block,
whenever `distribute_time` returns, the result keeps the subjects of the
weight map, all allocations are non-negative, and they sum exactly to the
total. -/
theorem claim_C3 (fuel : ℕ) (total : ℤ) (weights : List (String × ℚ))
    (mb : ℤ) (alloc : List (String × ℤ)) (hne : weights ≠ [])
    (hnd : (weights.map Prod.fst).Nodup) (hw : ∀ kv ∈ weights, 0 ≤ kv.2)
    (htot : 0 < total) (hmb : 0 ≤ mb)
    (h : distribute_time fuel total weights mb = some alloc) :
    alloc.map Prod.fst = weights.map Prod.fst ∧
      (∀ kv ∈ alloc, 0 ≤ kv.2) ∧ (alloc.map Prod.snd).sum = total := by
  rw [distribute_time, if_neg (not_le.mpr htot)] at h
  have hkeys : weights.map Prod.fst ≠ [] := by
    intro hh
    exact hne (List.map_eq_nil_iff.mp hh)
  obtain ⟨h1, h2, h3⟩ := distLoop_spec mb (weights.map Prod.fst) hmb hkeys
    fuel (initAlloc total weights mb) _ 0 alloc
    (initAlloc_fst total weights mb).symm
    (by rw [initAlloc_fst]; exact hnd)
    (initAlloc_nonneg total weights mb htot.le hmb hw) h
  refine ⟨by rw [h1, initAlloc_fst], h2, by rw [h3]; ring⟩

/-- Witness for claim C3 at a concrete input: one subject of weight 1,
total 10, minimum block 0; the allocation is 10 and sums to the total. -/
theorem claim_C3_witness :
    ([("a", (1:ℚ))] ≠ [] ∧ ([("a", (1:ℚ))].map Prod.fst).Nodup ∧
        (∀ kv ∈ [("a", (1:ℚ))], 0 ≤ kv.2) ∧ (0:ℤ) < 10 ∧ (0:ℤ) ≤ 0 ∧
        distribute_time 1 10 [("a", 1)] 0 = some [("a", 10)]) ∧
      ([("a", (10:ℤ))].map Prod.fst = [("a", (1:ℚ))].map Prod.fst ∧
        (∀ kv ∈ [("a", (10:ℤ))], 0 ≤ kv.2) ∧
        ([("a", (10:ℤ))].map Prod.snd).sum = 10) := by
  have hw : ∀ kv ∈ [("a", (1:ℚ))], 0 ≤ kv.2 := by
    intro kv hkv
    rw [List.mem_singleton] at hkv
    subst hkv
    norm_num
  have hd : distribute_time 1 10 [("a", (1:ℚ))] 0 = some [("a", 10)] := by
    have h1 : initAlloc 10 [("a", (1:ℚ))] 0 = [("a", 10)] := by
      norm_num [initAlloc, pyInt]
    rw [distribute_time, if_neg (by norm_num), h1]
    simpa using distLoop_diff_zero 0 ["a"] 1 [("a", 10)] 0
  exact ⟨⟨by simp, by simp, hw, by decide, le_refl 0, hd⟩,
    claim_C3 1 10 [("a", 1)] 0 [("a", 10)] (by simp) (by simp) hw
      (by decide) (le_refl 0) hd⟩

/-- Claim C4: there is an input (total 30, two zero-weight subjects, minimum
block 25) on which the reconciliation loop of `distribute_time` never
terminates: both allocations are bumped to the 25-minute floor, the sum 50
overshoots the total by 20, and the decrement guard `raw[k] > min_block`
never fires. -/
theorem claim_C4 :
    ∃ (total : ℤ) (weights : List (String × ℚ)) (mb : ℤ),
      weights ≠ [] ∧ 0 < total ∧
        ∀ fuel, distribute_time fuel total weights mb = none := by
  refine ⟨30, [("a", 0), ("b", 0)], 25, by simp, by norm_num, ?_⟩
  intro fuel
  have h1 : initAlloc 30 [("a", (0:ℚ)), ("b", 0)] 25 = [("a", 25), ("b", 25)] := by
    norm_num [initAlloc, pyInt]
  rw [distribute_time, if_neg (by norm_num), h1]
  simpa using distLoop_stuck fuel 0

/-- Claim C5: for positive minutes, focus length and short break, the
segmenter returns, and the durations of all its blocks — study and break
together — sum to exactly the input minutes: short breaks are taken out of
the subject's allocation, not added on top. -/
theorem claim_C5 (minutes f s : ℤ) (hm : 0 < minutes) (hf : 0 < f)
    (hs : 0 < s) :
    ∃ l, split_into_sessions minutes f s = some l ∧
      (l.map Prod.fst).sum = minutes := by
  obtain ⟨l, hl⟩ := split_go_total f s hf hs.le minutes.toNat minutes le_rfl
  refine ⟨l, hl, ?_⟩
  have hsum := split_go_sum f s minutes.toNat minutes l hl
  omega

/-- Witness for claim C5 at a concrete input: 7 minutes, focus 3, short
break 2 give study 3, break 2, study 2, summing to 7. -/
theorem claim_C5_witness :
    ((0:ℤ) < 7 ∧ (0:ℤ) < 3 ∧ (0:ℤ) < 2) ∧
      ∃ l, split_into_sessions 7 3 2 = some l ∧ (l.map Prod.fst).sum = 7 :=
  ⟨⟨by decide, by decide, by decide⟩,
    claim_C5 7 3 2 (by decide) (by decide) (by decide)⟩

/-- Claim C6: every block sequence returned by `build_schedule` is
contiguous and non-overlapping — the first block starts at the given start
time and each block starts exactly where the previous one ended. -/
theorem claim_C6 (fuel : ℕ) (subjects : List String)
    (priorities : List (String × ℚ)) (total start f s lbe lbl : ℤ)
    (rows : List Row)
    (h : build_schedule fuel subjects priorities total start f s lbe lbl
      = some rows) :
    contiguousFrom start rows = true := by
  rw [build_schedule] at h
  cases hd : distribute_time fuel total (normalize_weights priorities)
      (min 25 total) with
  | none => rw [hd] at h; cases h
  | some per =>
    rw [hd] at h
    exact buildGo_contig f s lbe lbl per subjects start 0 rows h

/-- Witness for claim C6: the example schedule starts at 0 and is
contiguous. -/
theorem claim_C6_witness :
    (build_schedule 1 exSubjects exPriorities 180 0 45 10 3 20 = some exRows) ∧
      contiguousFrom 0 exRows = true :=
  ⟨exBuild 1,
    claim_C6 1 exSubjects exPriorities 180 0 45 10 3 20 exRows (exBuild 1)⟩

/-- Claim C7: in every schedule `build_schedule` produces (with a nonzero
cadence, as a zero cadence raises `ZeroDivisionError` in the source),
counting study blocks with one running counter across all subjects, every
study block whose count is a multiple of the cadence is immediately
followed by a break of the configured long-break length, and break blocks
never increment the counter. -/
theorem claim_C7 (fuel : ℕ) (subjects : List String)
    (priorities : List (String × ℚ)) (total start f s lbe lbl : ℤ)
    (rows : List Row) (hlbe : lbe ≠ 0)
    (h : build_schedule fuel subjects priorities total start f s lbe lbl
      = some rows) :
    cadenceOK lbe lbl 0 rows = true := by
  rw [build_schedule] at h
  cases hd : distribute_time fuel total (normalize_weights priorities)
      (min 25 total) with
  | none => rw [hd] at h; cases h
  | some per =>
    rw [hd] at h
    exact buildGo_cadence f s lbe lbl per subjects start 0 rows h

/-- Witness for claim C7: in the example schedule the third study block is
immediately followed by the 20-minute long break. -/
theorem claim_C7_witness :
    ((3:ℤ) ≠ 0 ∧
        build_schedule 1 exSubjects exPriorities 180 0 45 10 3 20 = some exRows) ∧
      cadenceOK 3 20 0 exRows = true :=
  ⟨⟨by decide, exBuild 1⟩,
    claim_C7 1 exSubjects exPriorities 180 0 45 10 3 20 exRows (by decide)
      (exBuild 1)⟩

/-- Claim C8: for every non-empty priority map whose weights sum to exactly
zero, `normalize_weights` keeps the subjects and gives each of the `n`
subjects weight `1/n`. -/
theorem claim_C8 (priorities : List (String × ℚ)) (hne : priorities ≠ [])
    (h0 : (priorities.map Prod.snd).sum = 0) :
    (normalize_weights priorities).map Prod.fst = priorities.map Prod.fst ∧
      ∀ kv ∈ normalize_weights priorities,
        kv.2 = 1 / (priorities.length : ℚ) := by
  have hn : normalize_weights priorities
      = priorities.map (fun kv => (kv.1, 1 / (priorities.length : ℚ))) := by
    simp only [normalize_weights]
    rw [if_pos h0]
  rw [hn]
  constructor
  · exact map_fst_map (fun kv => (kv.1, 1 / (priorities.length : ℚ)))
      (fun kv => rfl) priorities
  · intro kv hkv
    rcases List.mem_map.mp hkv with ⟨kv0, _, rfl⟩
    rfl

/-- Witness for claim C8: weights 1 and -1 sum to zero, so both subjects
get weight 1/2. -/
theorem claim_C8_witness :
    ([("a", (1:ℚ)), ("b", -1)] ≠ [] ∧
        ([("a", (1:ℚ)), ("b", -1)].map Prod.snd).sum = 0) ∧
      ((normalize_weights [("a", (1:ℚ)), ("b", -1)]).map Prod.fst
          = [("a", (1:ℚ)), ("b", -1)].map Prod.fst ∧
        ∀ kv ∈ normalize_weights [("a", (1:ℚ)), ("b", -1)],
          kv.2 = 1 / (([("a", (1:ℚ)), ("b", -1)]).length : ℚ)) :=
  ⟨⟨by simp, by norm_num⟩, claim_C8 [("a", 1), ("b", -1)] (by simp) (by norm_num)⟩

/-- Claim C9: `load_memory` returns the fallback `{"last_plan": []}` both
when the memory file is absent and when its contents fail to parse, and
(being a total function of those two outcomes) propagates no exception. -/
theorem claim_C9 (file_exists : Bool) (parsed : Option JsonVal)
    (h : file_exists = false ∨ parsed = none) :
    load_memory file_exists parsed = emptyMemory := by
  rcases h with h | h
  · rw [h]
    rfl
  · rw [h, load_memory]
    cases file_exists <;> rfl

/-- Witness for claim C9: an absent file yields the fallback memory even
when a parse result is at hand. -/
theorem claim_C9_witness :
    (false = false ∨ (some JsonVal.null : Option JsonVal) = none) ∧
      load_memory false (some JsonVal.null) = emptyMemory :=
  ⟨Or.inl rfl, claim_C9 false (some JsonVal.null) (Or.inl rfl)⟩

/-- Claim C10: for every positive total, `distribute_time` on the empty
weight map terminates with the empty allocation (the loop guard also
requires a non-empty key list), whose sum is 0, not the total — so the
sums-to-total guarantee needs at least one subject. -/
theorem claim_C10 (fuel : ℕ) (total mb : ℤ) (htot : 0 < total) :
    distribute_time fuel total [] mb = some [] ∧
      (([] : List (String × ℤ)).map Prod.snd).sum = 0 ∧
      (([] : List (String × ℤ)).map Prod.snd).sum ≠ total := by
  refine ⟨?_, rfl, by simpa using htot.ne⟩
  rw [distribute_time, if_neg (not_le.mpr htot)]
  have h1 : initAlloc total [] mb = [] := rfl
  rw [h1]
  simpa using distLoop_nil_keys mb fuel [] (total - 0) 0

/-- Witness for claim C10 at total 7: the empty map is returned and its
sum 0 differs from 7. -/
theorem claim_C10_witness :
    (0:ℤ) < 7 ∧
      (distribute_time 0 7 [] 25 = some [] ∧
        (([] : List (String × ℤ)).map Prod.snd).sum = 0 ∧
        (([] : List (String × ℤ)).map Prod.snd).sum ≠ 7) :=
  ⟨by decide, claim_C10 0 7 25 (by decide)⟩
